import Mathlib

/-!
Verification of the RecordingBot core against its specification.

The repository ships two revisions of the recording pipeline:
  * `bot/utils/chunk_pipeline.py`  (referred to below as the `utils` revision)
  * `bot/untils/chunk_pipeline.py` (referred to below as the `untils` revision)
They differ in the per-part retry logic, the stall watchdog, and the
duration-credit fallback.  Both are embedded below, faithfully, so that the
claims can be settled against each.

Times and durations are modelled as rationals (`ℚ`); byte counts as naturals;
process exit codes as integers.  The fallible prober
(`bot/untils/probe.py`, `media_duration_seconds`) returns `Option ℚ`:
`none` models every path in which ffprobe fails or reports no duration.
-/

namespace RecordingBot

/-! ## Constants (bot/untils/chunk_pipeline.py lines 36-39, bot/config.py) -/

/-- STALL_SECONDS = 25 (untils revision only). -/
def STALL_SECONDS : ℚ := 25

/-- RETRY_BACKOFF_BASE = 2.0 seconds (untils revision only). -/
def RETRY_BACKOFF_BASE : ℚ := 2

/-- RETRY_BACKOFF_MAX = 20.0 seconds (untils revision only). -/
def RETRY_BACKOFF_MAX : ℚ := 20

/-- MIN_GOOD_BYTES = 2 * 1024 * 1024 (untils revision only). -/
def MIN_GOOD_BYTES : ℕ := 2 * 1024 * 1024

/-- The utils revision hard-codes its tiny-output threshold inline:
`out_path.stat().st_size < 1024 * 1024` (utils line 350). -/
def UTILS_TINY_BYTES : ℕ := 1024 * 1024

/-- The utils revision hard-codes its retry delay inline:
`await asyncio.sleep(3)` (utils line 352). -/
def UTILS_RETRY_DELAY : ℚ := 3

/-! ## Per-part attempt bookkeeping

State mutated by one iteration of the main `while` loop of
`run_recording_task`, restricted to the progress-accounting variables
(`elapsed_total`, `vod_offset`, `fail_streak`, `part_index`).
-/

/-- Progress-accounting state of `run_recording_task` across part attempts. -/
structure PipelineState where
  elapsed_total : ℚ
  vod_offset : ℚ
  fail_streak : ℕ
  part_index : ℕ
  deriving Repr, DecidableEq

/-- Observation of one finished encoder attempt: exit code `rc`, whether the
output file exists and its size, the prober result, the wall-clock seconds
since the attempt started (`time.time() - start_ts`), and the attempt's
time budget `this_part_t`. -/
structure AttemptObs where
  rc : ℤ
  outExists : Bool
  outSize : ℕ
  probed : Option ℚ
  wallClock : ℚ
  thisPartT : ℚ
  deriving Repr, DecidableEq

/-- Result of handling one finished attempt: retry after a delay without
uploading, or complete the part crediting a duration. -/
inductive AttemptResult where
  | retry (delay : ℚ)
  | completed (creditedDur : ℚ)
  deriving Repr, DecidableEq

/-! ### untils revision (bot/untils/chunk_pipeline.py lines 470-487) -/

/-- Line 471: `elapsed_wall = min(time.time() - start_ts, this_part_t)`. -/
def untilsElapsedWall (o : AttemptObs) : ℚ :=
  min o.wallClock o.thisPartT

/-- Lines 472-473:
`actual_dur = float(probed) if (probed and probed > 0) else float(elapsed_wall)`.
Python truthiness: `probed` is falsy when it is `None` or `0.0`, so the
probed value is used exactly when it is present and strictly positive. -/
def untilsActualDur (o : AttemptObs) : ℚ :=
  match o.probed with
  | some d => if 0 < d then d else untilsElapsedWall o
  | none => untilsElapsedWall o

/-- Line 476:
`tiny = (not out_path.exists()) or (out_path.stat().st_size < MIN_GOOD_BYTES)`. -/
def untilsTiny (o : AttemptObs) : Bool :=
  (!o.outExists) || decide (o.outSize < MIN_GOOD_BYTES)

/-- Line 479:
`backoff = min(RETRY_BACKOFF_MAX, RETRY_BACKOFF_BASE * (1.6 ** min(fail_streak, 8)))`,
with 1.6 written as the rational 8/5. -/
def untilsBackoff (fail_streak : ℕ) : ℚ :=
  min RETRY_BACKOFF_MAX (RETRY_BACKOFF_BASE * ((8 : ℚ) / 5) ^ min fail_streak 8)

/-- Lines 475-487 of the untils revision, the completion handling of one
attempt:

```python
tiny = (not out_path.exists()) or (out_path.stat().st_size < MIN_GOOD_BYTES)
if rc != 0 and tiny:
    fail_streak += 1
    backoff = min(RETRY_BACKOFF_MAX, RETRY_BACKOFF_BASE * (1.6 ** min(fail_streak, 8)))
    await asyncio.sleep(backoff)
    # do not advance elapsed_total
    continue
fail_streak = 0
elapsed_total += actual_dur
vod_offset += actual_dur
```

On the non-retry path the loop later executes `part_index += 1`. -/
def untilsStep (s : PipelineState) (o : AttemptObs) : PipelineState × AttemptResult :=
  if o.rc ≠ 0 ∧ untilsTiny o = true then
    let fs := s.fail_streak + 1
    ({ s with fail_streak := fs }, .retry (untilsBackoff fs))
  else
    let d := untilsActualDur o
    ({ elapsed_total := s.elapsed_total + d
       vod_offset := s.vod_offset + d
       fail_streak := 0
       part_index := s.part_index + 1 }, .completed d)

/-! ### utils revision (bot/utils/chunk_pipeline.py lines 344-353) -/

/-- Line 345: `actual_dur = media_duration_seconds(out_path) or float(this_part_t)`.
Python `or`: the fallback `this_part_t` is used when the prober returns
`None` or exactly `0.0`. -/
def utilsActualDur (o : AttemptObs) : ℚ :=
  match o.probed with
  | some d => if d = 0 then o.thisPartT else d
  | none => o.thisPartT

/-- Lines 344-353 of the utils revision:

```python
actual_dur = media_duration_seconds(out_path) or float(this_part_t)
elapsed_total += float(actual_dur)
vod_offset += float(actual_dur)
if rc != 0 and (not out_path.exists() or out_path.stat().st_size < 1024 * 1024):
    # tiny output means failed
    await asyncio.sleep(3)
    continue
```

Note that `elapsed_total` and `vod_offset` are advanced before the tiny-output
check, so a failed attempt still advances them; there is no failure counter.
On the non-retry path the loop later executes `part_index += 1`. -/
def utilsStep (s : PipelineState) (o : AttemptObs) : PipelineState × AttemptResult :=
  let d := utilsActualDur o
  let s1 := { s with elapsed_total := s.elapsed_total + d, vod_offset := s.vod_offset + d }
  if o.rc ≠ 0 ∧ ((!o.outExists) || decide (o.outSize < UTILS_TINY_BYTES)) = true then
    (s1, .retry UTILS_RETRY_DELAY)
  else
    ({ s1 with part_index := s1.part_index + 1 }, .completed d)

/-! ## Output-growth polling and the stall watchdog

Both revisions poll the output file every 2 seconds
(`await asyncio.sleep(2.0)`) while the encoder runs, updating a smoothed
speed estimate from file growth.  Only the untils revision
(lines 422-451) keeps a stall timer and terminates the process after
`STALL_SECONDS` of zero growth; the utils revision (lines 316-333) has no
stall handling at all.
-/

/-- State of the polling loop: `last_size`, `last_ts`, `speed_bps`, and
(untils only) `stall_since`. -/
structure PollState where
  lastSize : ℕ
  lastTs : ℚ
  speed : ℚ
  stallSince : Option ℚ
  deriving Repr, DecidableEq

/-- What one poll iteration decides to do with the encoder process. -/
inductive PollAction where
  | keepWaiting
  | terminateStalled
  deriving Repr, DecidableEq

/-- Shared speed computation (untils lines 429-440, utils lines 318-329):

```python
size = out_path.stat().st_size if out_path.exists() else 0
now = time.time()
dt = max(1e-6, now - last_ts)
ds = max(0, size - last_size)
inst = ds / dt
speed_bps = inst if speed_bps <= 0 else (0.7 * speed_bps + 0.3 * inst)
```
-/
def pollSpeed (st : PollState) (size : ℕ) (now : ℚ) : ℚ :=
  let dt : ℚ := max (1 / 1000000) (now - st.lastTs)
  let ds : ℤ := max 0 ((size : ℤ) - (st.lastSize : ℤ))
  let inst : ℚ := (ds : ℚ) / dt
  if st.speed ≤ 0 then inst else (7 / 10) * st.speed + (3 / 10) * inst

/-- One iteration of the untils progress loop (lines 425-451), entered every
2 seconds while the process is still running.  The stall watchdog
(lines 443-451):

```python
if ds == 0:
    if stall_since is None:
        stall_since = now
    elif (now - stall_since) >= STALL_SECONDS:
        # stalled: restart ffmpeg
        await _terminate_proc(task_id, p, timeout=6.0)
        break
else:
    stall_since = None
```

After the `break` the code falls through to `rc = await p.wait()` and the
ordinary completion handling (`untilsStep`). -/
def untilsPoll (st : PollState) (size : ℕ) (now : ℚ) : PollState × PollAction :=
  let ds : ℤ := max 0 ((size : ℤ) - (st.lastSize : ℤ))
  let sp := pollSpeed st size now
  let st1 : PollState := { st with lastSize := size, lastTs := now, speed := sp }
  if ds = 0 then
    match st.stallSince with
    | none => ({ st1 with stallSince := some now }, .keepWaiting)
    | some t0 =>
        if STALL_SECONDS ≤ now - t0 then (st1, .terminateStalled)
        else (st1, .keepWaiting)
  else
    ({ st1 with stallSince := none }, .keepWaiting)

/-- One iteration of the utils progress loop (lines 316-333): speed is
computed from file growth exactly as in `untilsPoll`, but there is no stall
timer and the process is never terminated by the poll loop. -/
def utilsPoll (st : PollState) (size : ℕ) (now : ℚ) : PollState × PollAction :=
  let sp := pollSpeed st size now
  ({ st with lastSize := size, lastTs := now, speed := sp }, .keepWaiting)

/-- Run a poll loop over a list of poll instants (each 2 seconds apart in the
program), feeding a constant observed file size; stops early when the loop
body breaks out to terminate the process, mirroring the `break`. -/
def pollRun (poll : PollState → ℕ → ℚ → PollState × PollAction) :
    PollState → ℕ → List ℚ → PollState × PollAction
  | st, _, [] => (st, .keepWaiting)
  | st, size, t :: ts =>
      match poll st size t with
      | (st1, .keepWaiting) => pollRun poll st1 size ts
      | (st1, .terminateStalled) => (st1, .terminateStalled)

/-- Poll instants: `n` ticks of the fixed 2-second interval starting at
`t0`. -/
def pollTimes (t0 : ℚ) (n : ℕ) : List ℚ :=
  (List.range n).map (fun i => t0 + 2 * (i : ℚ))

/-! ## Transfer client: remux fallback (bot/utils/chunk_pipeline.py 386-424)

The effectful calls are abstracted as booleans:
`firstSendOk` / `secondSendOk` model whether `send_video_with_progress`
returns normally or raises, and `remuxCmdOk` models whether the ffmpeg remux
subprocess call returns without raising.  The progress trackers are numbered:
tracker 1 is the one built for the first attempt, tracker 2 is `tracker2`
built for the retry.
-/

/-- Embedding of `_remux_to_mp4` (utils lines 75-89, identical in untils
lines 84-98): returns true only if the ffmpeg subprocess call succeeded and
the output file exists with a strictly positive size; any exception yields
false. -/
def remux_to_mp4 (cmdOk : Bool) (outExists : Bool) (outSize : ℕ) : Bool :=
  if cmdOk then outExists && decide (0 < outSize) else false

/-- Observation of one part's upload phase. -/
structure UploadObs where
  firstSendOk : Bool
  remuxCmdOk : Bool
  remuxOutExists : Bool
  remuxOutSize : ℕ
  secondSendOk : Bool
  deriving Repr, DecidableEq

/-- Outcome of the upload phase for one part. -/
inductive TransferOutcome where
  /-- A send attempt returned normally; records which tracker the successful
  attempt used (1 = original, 2 = the fresh `tracker2`). -/
  | uploaded (trackerUsed : ℕ)
  /-- First send raised and the remux failed: the exception is swallowed,
  `ok` stays `False`, and the loop moves on to the next part. -/
  | skippedSilently
  /-- The retried send raised; the exception propagates to the worker. -/
  | raisedToTask
  deriving Repr, DecidableEq

/-- Count of send attempts and remux attempts made in the upload phase. -/
structure TransferCounts where
  sendAttempts : ℕ
  remuxAttempts : ℕ
  deriving Repr, DecidableEq

/-- Embedding of the upload phase of one part, utils lines 386-424:

```python
try:
    await send_video_with_progress(..., tracker=tracker, ...)
    ok = True
except Exception:
    # Telegram can reject MKV as video -> remux to MP4 and retry
    if await _remux_to_mp4(out_path, mp4_path):
        tracker2 = ProgressTracker(...)
        ...
        await send_video_with_progress(..., tracker=tracker2, ...)
        ok = True
```

When the remux returns `False` the `except` block falls through with
`ok = False` and no exception; when the retried send raises, nothing catches
it. -/
def uploadPhase (o : UploadObs) : TransferOutcome × TransferCounts :=
  if o.firstSendOk then
    (.uploaded 1, ⟨1, 0⟩)
  else
    if remux_to_mp4 o.remuxCmdOk o.remuxOutExists o.remuxOutSize then
      if o.secondSendOk then (.uploaded 2, ⟨2, 1⟩)
      else (.raisedToTask, ⟨2, 1⟩)
    else
      (.skippedSilently, ⟨1, 1⟩)

/-! ## Task queue and concurrency controller (bot/task_manager.py)

Task ids are modelled as naturals.  The state keeps the FIFO
`asyncio.Queue` (`queue`), the `_queued` dict (as the set of its keys),
the `_active` dict, the semaphore's available-permit count, and two
history sets that exist only in the model: `ranEver` records every task for
which a worker has invoked the runner, and `seen` records every id ever
enqueued (the contract assumes caller-generated ids are unique, so `enqueue`
requires a fresh id).  `cancelledQueued` records tasks hit by the
queued branch of `cancel_task` or `cancel_user`, `cancelledActive` those hit
by the active branch. -/
structure TMState where
  queue : List ℕ
  queuedSet : Finset ℕ
  active : Finset ℕ
  semAvail : ℕ
  cancelledQueued : Finset ℕ
  cancelledActive : Finset ℕ
  ranEver : Finset ℕ
  seen : Finset ℕ
  deriving DecidableEq

/-- Semaphore size: `self.max_concurrent = max(1, int(max_concurrent))` and
`self._sem = asyncio.Semaphore(self.max_concurrent)` (task_manager.py
lines 60-66). -/
def semSize (maxConcurrent : ℤ) : ℕ :=
  (max 1 maxConcurrent).toNat

/-- Initial state of `TaskManager.__init__`: empty queue and dicts, all
permits available. -/
def initTM (maxConcurrent : ℤ) : TMState :=
  ⟨[], ∅, ∅, semSize maxConcurrent, ∅, ∅, ∅, ∅⟩

/-- Transitions of the task manager.

* `enqueue` (lines 118-122): `self._queued[task.task_id] = task` then
  `await self._queue.put(task)`; ids are assumed unique, hence the freshness
  premise.
* `cancelQueued` (lines 156-161 and 181-185): `self._queued.pop(task_id)`
  succeeds, `t.state = "cancelled"`.
* `cancelActive` (lines 163-173): the task is active; its state is set to
  cancelled and `request_stop` is signalled; queue bookkeeping is unchanged.
* `dequeueSkip` (lines 202-207): a worker pulls the next task but
  `task.task_id not in self._queued`, so it calls `task_done` and loops
  without touching the semaphore or the runner.
* `dequeueRun` (lines 209-216): a worker acquires a semaphore permit
  (`async with self._sem`, so `0 < semAvail`), moves the task from
  `_queued` to `_active`, and invokes the runner.
* `finishTask` (lines 223-225): the runner returned or raised; the task is
  removed from `_active` and the permit is released. -/
inductive TMStep : TMState → TMState → Prop where
  | enqueue (s : TMState) (t : ℕ) (hfresh : t ∉ s.seen) :
      TMStep s { s with queue := s.queue ++ [t]
                        queuedSet := insert t s.queuedSet
                        seen := insert t s.seen }
  | cancelQueued (s : TMState) (t : ℕ) (hq : t ∈ s.queuedSet) :
      TMStep s { s with queuedSet := s.queuedSet.erase t
                        cancelledQueued := insert t s.cancelledQueued }
  | cancelActive (s : TMState) (t : ℕ) (ha : t ∈ s.active) :
      TMStep s { s with cancelledActive := insert t s.cancelledActive }
  | dequeueSkip (s : TMState) (t : ℕ) (rest : List ℕ)
      (hq : s.queue = t :: rest) (hnot : t ∉ s.queuedSet) :
      TMStep s { s with queue := rest }
  | dequeueRun (s : TMState) (t : ℕ) (rest : List ℕ)
      (hq : s.queue = t :: rest) (hin : t ∈ s.queuedSet)
      (hsem : 0 < s.semAvail) :
      TMStep s { s with queue := rest
                        queuedSet := s.queuedSet.erase t
                        active := insert t s.active
                        ranEver := insert t s.ranEver
                        semAvail := s.semAvail - 1 }
  | finishTask (s : TMState) (t : ℕ) (ha : t ∈ s.active) :
      TMStep s { s with active := s.active.erase t
                        semAvail := s.semAvail + 1 }

/-- Reachability from the freshly constructed manager. -/
def TMReachable (maxConcurrent : ℤ) (s : TMState) : Prop :=
  Relation.ReflTransGen TMStep (initTM maxConcurrent) s

/-- Inductive invariant of the task manager. -/
structure TMInv (maxConcurrent : ℤ) (s : TMState) : Prop where
  queued_sub_seen : s.queuedSet ⊆ s.seen
  active_sub_seen : s.active ⊆ s.seen
  ran_sub_seen : s.ranEver ⊆ s.seen
  cq_sub_seen : s.cancelledQueued ⊆ s.seen
  queued_active_disj : ∀ t ∈ s.queuedSet, t ∉ s.active
  queued_ran_disj : ∀ t ∈ s.queuedSet, t ∉ s.ranEver
  cq_queued_disj : ∀ t ∈ s.cancelledQueued, t ∉ s.queuedSet
  cq_ran_disj : ∀ t ∈ s.cancelledQueued, t ∉ s.ranEver
  cq_active_disj : ∀ t ∈ s.cancelledQueued, t ∉ s.active
  sem_bound : s.active.card + s.semAvail = semSize maxConcurrent

/-! ## Playlist resolver (bot/untils/hls.py)

String-level helpers first.  Python library behaviour (`int`, `urljoin`,
the attribute regex) is modelled by executable Lean functions; the repository
code itself is translated line by line afterwards.
-/

/-- Model of Python `int(s)` for strings: optional surrounding whitespace,
optional sign, one or more ASCII digits; `none` models `ValueError`. -/
def pyInt? (s : String) : Option ℤ :=
  let t := s.trim
  let (sign, digits) :=
    if t.startsWith "-" then ((-1 : ℤ), t.drop 1)
    else if t.startsWith "+" then ((1 : ℤ), t.drop 1)
    else ((1 : ℤ), t)
  if digits.length > 0 && digits.data.all Char.isDigit then
    some (sign * ((digits.data.foldl (fun acc c => 10 * acc + (c.toNat - 48)) (0 : ℕ) : ℕ) : ℤ))
  else none

/-- Character class `\w` of the attribute regex. -/
def wordChar (c : Char) : Bool := c.isAlphanum || c = '_'

/-- Character class `[\w-]` of the attribute regex. -/
def keyChar (c : Char) : Bool := wordChar c || c = '-'

/-- Value alternative of the attribute regex `("[^"]*"|[^,]*)`: a quoted
string when one starts here and is closed, otherwise a greedy run of
non-comma characters.  Returns the matched value (quotes included, as the
regex group does) and the remaining input. -/
def scanAttrValue (l : List Char) : List Char × List Char :=
  match l with
  | '"' :: rest =>
      if rest.any (fun c => c = '"') then
        let v := rest.takeWhile (fun c => c ≠ '"')
        ('"' :: (v ++ ['"']), (rest.drop v.length).drop 1)
      else
        let v := l.takeWhile (fun c => c ≠ ',')
        (v, l.drop v.length)
  | _ =>
      let v := l.takeWhile (fun c => c ≠ ',')
      (v, l.drop v.length)

/-- Scanner model of `re.findall` for `(\w[\w-]*)=("[^"]*"|[^,]*)`
(hls.py line 11): at each position, try to match a key (`\w` then `[\w-]*`)
followed by `=` and a value; on failure advance one character.  The fuel is
the remaining length; every step consumes at least one character. -/
def scanAttrsAux : ℕ → List Char → List (String × String)
  | 0, _ => []
  | _, [] => []
  | fuel + 1, c :: rest =>
      if wordChar c then
        let keyTail := rest.takeWhile keyChar
        match rest.drop keyTail.length with
        | '=' :: afterEq =>
            let (v, rest2) := scanAttrValue afterEq
            (String.mk (c :: keyTail), String.mk v) :: scanAttrsAux fuel rest2
        | _ => scanAttrsAux fuel rest
      else
        scanAttrsAux fuel rest

/-- Embedding of `_parse_attrs` (hls.py lines 17-24): keys are uppercased,
values stripped, surrounding quotes removed.  The Python dict keeps the last
write for a repeated key, so lookups below search from the right. -/
def parse_attrs (line : String) : List (String × String) :=
  (scanAttrsAux line.data.length line.data).map (fun kv =>
    let v := kv.2.trim
    let v := if v.startsWith "\"" && v.endsWith "\"" then (v.drop 1).dropRight 1 else v
    (kv.1.toUpper, v))

/-- Dict lookup, last write wins (Python `attrs.get(k)`). -/
def attrGet (attrs : List (String × String)) (k : String) : Option String :=
  (attrs.reverse.find? (fun kv => kv.1 == k)).map (fun kv => kv.2)

/-- Python `a or b` for an optional string against a default: the default is
used when the attribute is missing or empty (falsy). -/
def pyOrS (a : Option String) (b : String) : String :=
  match a with
  | some s => if s = "" then b else s
  | none => b

/-- Text after the first colon: `ln.split(":", 1)[1] if ":" in ln else ln`. -/
def afterFirstColon (s : String) : String :=
  match s.splitOn ":" with
  | [] => s
  | [_] => s
  | _ :: rest => String.intercalate ":" rest

/-- Keep a character list through its last occurrence of `c` (helper for the
base-directory computation). -/
def keepThroughLast (c : Char) (l : List Char) : List Char :=
  ((l.reverse).dropWhile (fun d => d ≠ c)).reverse

/-- Model of `urllib.parse.urljoin(base, rel)` restricted to the shapes an
HLS manifest exercises: absolute URLs pass through, scheme-relative and
root-relative references attach to the base scheme resp. authority, and
plain relative references replace the last path segment of the base. -/
def urljoin (base rel : String) : String :=
  if rel = "" then base
  else if (rel.splitOn "://").length > 1 then rel
  else if rel.startsWith "//" then
    match base.splitOn "://" with
    | scheme :: _ :: _ => scheme ++ ":" ++ rel
    | _ => rel
  else if rel.startsWith "/" then
    match base.splitOn "://" with
    | scheme :: hostPath :: _ => scheme ++ "://" ++ String.mk (hostPath.data.takeWhile (fun c => c ≠ '/')) ++ rel
    | _ => rel
  else
    match base.splitOn "://" with
    | scheme :: hostPath :: rest =>
        let hp := String.intercalate "://" (hostPath :: rest)
        if hp.data.any (fun c => c = '/') then
          scheme ++ "://" ++ String.mk (keepThroughLast '/' hp.data) ++ rel
        else scheme ++ "://" ++ hp ++ "/" ++ rel
    | _ =>
        if base.data.any (fun c => c = '/') then
          String.mk (keepThroughLast '/' base.data) ++ rel
        else rel

/-- Marker tags (hls.py lines 8-9). -/
def MASTER_HINT : String := "#EXT-X-STREAM-INF"

/-- Audio media marker tag. -/
def MEDIA_HINT : String := "#EXT-X-MEDIA"

/-- Embedding of `is_master_playlist` (hls.py lines 13-15): substring test. -/
def is_master_playlist (text : String) : Bool :=
  (text.splitOn MASTER_HINT).length > 1

/-- Line preparation (hls.py line 32):
`[ln.strip() for ln in text.splitlines() if ln.strip()]`. -/
def manifestLines (text : String) : List String :=
  (((text.splitOn "\n").map String.trim).filter (fun l => l ≠ ""))

/-- One selectable video rendition (hls.py lines 86-92). -/
structure Variant where
  id : String
  label : String
  bandwidth : String
  url : String
  attrs : List (String × String)
  deriving Repr, DecidableEq

/-- One selectable audio rendition (hls.py lines 48-55). -/
structure AudioTrack where
  id : String
  label : String
  lang : String
  name : String
  group_id : String
  url : String
  deriving Repr, DecidableEq

/-- Character class of `re.sub(r"[^a-zA-Z0-9:_-]+", "_", aid)`. -/
def audioIdChar (c : Char) : Bool :=
  c.isAlphanum || [':', '_', '-'].contains c

/-- Model of `re.sub(r"[^a-zA-Z0-9:_-]+", "_", s)`: every maximal run of
disallowed characters collapses to a single underscore. -/
def collapseRuns : List Char → List Char
  | [] => []
  | c :: rest =>
      if audioIdChar c then c :: collapseRuns rest
      else '_' :: collapseRuns (rest.dropWhile (fun d => !audioIdChar d))
  termination_by l => l.length
  decreasing_by
    · simp only [List.length_cons]; omega
    · simp only [List.length_cons]
      exact Nat.lt_succ_of_le (List.dropWhile_sublist _).length_le

/-- Embedding of the audio-track loop of `parse_master`
(hls.py lines 37-55), applied to one line. -/
def parseAudioLine (base_url : String) (ln : String) : Option AudioTrack :=
  if ln.startsWith MEDIA_HINT && (ln.toUpper.splitOn "TYPE=AUDIO").length > 1 then
    let attrs := parse_attrs (afterFirstColon ln)
    match attrGet attrs "URI" with
    | none => none
    | some uri =>
        if uri = "" then none
        else
          let aurl := urljoin base_url uri
          let lang := pyOrS (attrGet attrs "LANGUAGE") (pyOrS (attrGet attrs "NAME") "audio")
          let name := pyOrS (attrGet attrs "NAME") lang
          let gid := pyOrS (attrGet attrs "GROUP-ID") "audio"
          let aid := gid ++ ":" ++ name
          some
            { id := String.mk (collapseRuns aid.data)
              label := if lang ≠ "" && name ≠ lang then name ++ " (" ++ lang ++ ")" else name
              lang := lang
              name := name
              group_id := gid
              url := aurl }
  else none

/-- Label from a RESOLUTION attribute (hls.py lines 74-79):
`res.split("x")[1] + "p"`, with the IndexError fallback to `res`. -/
def resLabel (res : String) : String :=
  match res.splitOn "x" with
  | _ :: second :: _ => second ++ "p"
  | _ => res

/-- Embedding of the variant-scanning `while` loop of `parse_master`
(hls.py lines 58-95).  The index `i` is represented by the remaining line
list; `vid` is the running variant counter.  When a `#EXT-X-STREAM-INF` line
is found, the following `#`-prefixed lines are skipped and the next plain
line is taken as the URI, with scanning resuming after it; if no plain line
remains, scanning falls through to the next line.  The fuel is the number of
remaining lines; each step consumes at least one line. -/
def scanVariantsAux (base_url : String) : ℕ → List String → ℕ → List Variant
  | 0, _, _ => []
  | _, [], _ => []
  | fuel + 1, ln :: rest, vid =>
      if ln.startsWith MASTER_HINT then
        let hashes := rest.takeWhile (fun l => l.startsWith "#")
        match rest.drop hashes.length with
        | [] => scanVariantsAux base_url fuel rest vid
        | uri :: rest2 =>
            let attrs := parse_attrs (afterFirstColon ln)
            let vurl := urljoin base_url uri
            let bw := (attrGet attrs "BANDWIDTH").getD ""
            let res := (attrGet attrs "RESOLUTION").getD ""
            let label1 := if res ≠ "" then resLabel res else ""
            let label2 :=
              if label1 = "" && bw ≠ "" then
                match pyInt? bw with
                | some n => toString (Int.fdiv n 1000) ++ "kbps"
                | none => bw
              else label1
            { id := "v" ++ toString (vid + 1)
              label := if label2 = "" then "variant" ++ toString (vid + 1) else label2
              bandwidth := bw
              url := vurl
              attrs := attrs } :: scanVariantsAux base_url fuel rest2 (vid + 1)
      else
        scanVariantsAux base_url fuel rest vid

/-- All variants in declaration order, before deduplication (the `variants`
list built by hls.py lines 58-95). -/
def rawVariants (text base_url : String) : List Variant :=
  let lines := manifestLines text
  scanVariantsAux base_url lines.length lines 0

/-- All audio tracks in declaration order (hls.py lines 37-55). -/
def parseAudios (text base_url : String) : List AudioTrack :=
  (manifestLines text).filterMap (parseAudioLine base_url)

/-- Deduplication by resolved URL keeping the first occurrence
(hls.py lines 97-104); `seenUrls` models the `seen` set. -/
def dedupByUrl : List Variant → List String → List Variant
  | [], _ => []
  | v :: rest, seenUrls =>
      if v.url ∈ seenUrls then dedupByUrl rest seenUrls
      else v :: dedupByUrl rest (v.url :: seenUrls)

/-- Embedding of `parse_master` (hls.py lines 26-105). -/
def parse_master (text base_url : String) : List Variant × List AudioTrack :=
  (dedupByUrl (rawVariants text base_url) [], parseAudios text base_url)

/-! ## Variant re-selection at a part boundary
(bot/untils/chunk_pipeline.py lines 331-356, identically
bot/utils/chunk_pipeline.py lines 220-244) -/

/-- Embedding of the local `_bw` key function:

```python
def _bw(v):
    try:
        return int(v.get("bandwidth") or v.get("attrs", {}).get("BANDWIDTH") or 0)
    except Exception:
        return 0
```
-/
def variantBW (v : Variant) : ℤ :=
  let raw : Option String :=
    if v.bandwidth ≠ "" then some v.bandwidth
    else match attrGet v.attrs "BANDWIDTH" with
      | some b => if b ≠ "" then some b else none
      | none => none
  match raw with
  | none => 0
  | some s => (pyInt? s).getD 0

/-- First variant whose label matches the previous label case-insensitively:

```python
for v in variants:
    if (v.get("label") or "").lower() == inputs.variant_label.lower():
        chosen = v
        break
```
-/
def chooseByLabel (lbl : String) (vs : List Variant) : Option Variant :=
  vs.find? (fun v => v.label.toLower == lbl.toLower)

/-- Embedding of `sorted(variants, key=_bw, reverse=True)[0]`: Python sort is
stable, so with `reverse=True` the head of the sorted list is the first
element attaining the maximal `_bw` key. -/
def maxByBW : List Variant → Option Variant
  | [] => none
  | v :: rest => some (rest.foldl (fun best x => if variantBW best < variantBW x then x else best) v)

/-- Embedding of the per-part variant selection (untils lines 336-349):
nothing is chosen from an empty list (the `if variants:` guard keeps the
previous selection); otherwise the label match is preferred when a previous
label is known and non-empty (Python truthiness of `inputs.variant_label`),
with the highest-bandwidth variant as fallback. -/
def selectVariant (variant_label : Option String) (vs : List Variant) : Option Variant :=
  match vs with
  | [] => none
  | _ =>
      let chosen : Option Variant :=
        match variant_label with
        | some lbl => if lbl = "" then none else chooseByLabel lbl vs
        | none => none
      match chosen with
      | some v => some v
      | none => maxByBW vs

/-! ## Name sanitization (`_safe_name`, utils lines 91-98 and untils
lines 101-108, identical in both revisions) -/

/-- Python `ch.isalnum()`, modelled on the ASCII plane. -/
def pyIsAlnumChar (c : Char) : Bool := c.isAlphanum

/-- The character whitelist of `_safe_name`:
`ch.isalnum() or ch in (" ", "-", "_", ".", "[", "]", "(", ")", "+")`. -/
def keepChar (c : Char) : Bool :=
  pyIsAlnumChar c || [' ', '-', '_', '.', '[', ']', '(', ')', '+'].contains c

/-- Per-character replacement: keep an allowed character, replace anything
else by an underscore. -/
def sanitizeChar (c : Char) : Char := if keepChar c then c else '_'

/-- Python `str.strip()` whitespace set (ASCII). -/
def pyIsSpaceChar (c : Char) : Bool :=
  [' ', '\t', '\n', '\r', '\x0b', '\x0c'].contains c

/-- Python `str.strip()` on a character list. -/
def pyStrip (l : List Char) : List Char :=
  ((l.dropWhile pyIsSpaceChar).reverse.dropWhile pyIsSpaceChar).reverse

/-- Embedding of `_safe_name`:

```python
keep = []
for ch in (name or ""):
    if ch.isalnum() or ch in (" ", "-", "_", ".", "[", "]", "(", ")", "+"):
        keep.append(ch)
    else:
        keep.append("_")
return "".join(keep).strip() or "recording"
```
-/
def safe_name (name : String) : String :=
  let kept := name.data.map sanitizeChar
  let stripped := pyStrip kept
  if stripped.isEmpty then "recording" else String.mk stripped

/-- Concrete scenario state: task 5 has been enqueued into a fresh manager
with the default concurrency 3. -/
def tmWitnessState1 : TMState :=
  { initTM 3 with
      queue := (initTM 3).queue ++ [5]
      queuedSet := insert 5 (initTM 3).queuedSet
      seen := insert 5 (initTM 3).seen }

/-- Concrete scenario state: task 5 has then been cancelled while queued
(`cancel_task` queued branch); note it is still in the FIFO queue, only the
`_queued` dict entry is gone. -/
def tmWitnessState2 : TMState :=
  { tmWitnessState1 with
      queuedSet := tmWitnessState1.queuedSet.erase 5
      cancelledQueued := insert 5 tmWitnessState1.cancelledQueued }

/-! ## Helper lemmas -/

theorem dedupByUrl_sublist (l : List Variant) (seen : List String) :
    (dedupByUrl l seen).Sublist l := by
  induction l generalizing seen with
  | nil => simp [dedupByUrl]
  | cons v rest ih =>
      by_cases h : v.url ∈ seen
      · simp only [dedupByUrl, if_pos h]
        exact (ih seen).cons v
      · simp only [dedupByUrl, if_neg h]
        exact (ih (v.url :: seen)).cons₂ v

theorem mem_dedupByUrl {w : Variant} {l : List Variant} {seen : List String}
    (hw : w ∈ dedupByUrl l seen) : w ∈ l ∧ w.url ∉ seen := by
  induction l generalizing seen with
  | nil => simp [dedupByUrl] at hw
  | cons v rest ih =>
      by_cases h : v.url ∈ seen
      · simp only [dedupByUrl, if_pos h] at hw
        obtain ⟨h1, h2⟩ := ih hw
        exact ⟨List.mem_cons_of_mem _ h1, h2⟩
      · simp only [dedupByUrl, if_neg h] at hw
        rcases List.mem_cons.mp hw with rfl | hw2
        · exact ⟨List.mem_cons_self _ _, h⟩
        · obtain ⟨h1, h2⟩ := ih hw2
          exact ⟨List.mem_cons_of_mem _ h1, fun hs => h2 (List.mem_cons_of_mem _ hs)⟩

theorem dedupByUrl_nodup (l : List Variant) (seen : List String) :
    ((dedupByUrl l seen).map Variant.url).Nodup := by
  induction l generalizing seen with
  | nil => simp [dedupByUrl]
  | cons v rest ih =>
      by_cases h : v.url ∈ seen
      · simpa only [dedupByUrl, if_pos h] using ih seen
      · simp only [dedupByUrl, if_neg h, List.map_cons, List.nodup_cons]
        refine ⟨?_, ih (v.url :: seen)⟩
        intro hmem
        obtain ⟨w, hw, hurl⟩ := List.mem_map.mp hmem
        exact (mem_dedupByUrl hw).2 (by rw [hurl]; exact List.mem_cons_self _ _)

theorem dedupByUrl_covers {v : Variant} {l : List Variant} {seen : List String}
    (hv : v ∈ l) (hs : v.url ∉ seen) :
    ∃ w ∈ dedupByUrl l seen, w.url = v.url := by
  induction l generalizing seen with
  | nil => simp at hv
  | cons x rest ih =>
      rcases List.mem_cons.mp hv with rfl | hv2
      · simp only [dedupByUrl, if_neg hs]
        exact ⟨v, List.mem_cons_self _ _, rfl⟩
      · by_cases h : x.url ∈ seen
        · simp only [dedupByUrl, if_pos h]
          exact ih hv2 hs
        · simp only [dedupByUrl, if_neg h]
          by_cases he : v.url = x.url
          · exact ⟨x, List.mem_cons_self _ _, he.symm⟩
          · have hs2 : v.url ∉ x.url :: seen := by
              intro hm
              rcases List.mem_cons.mp hm with hm1 | hm2
              · exact he hm1
              · exact hs hm2
            obtain ⟨w, hw, hurl⟩ := ih hv2 hs2
            exact ⟨w, List.mem_cons_of_mem _ hw, hurl⟩

theorem dedupByUrl_first {w : Variant} {l : List Variant} {seen : List String}
    (hw : w ∈ dedupByUrl l seen) :
    l.find? (fun x => x.url == w.url) = some w := by
  induction l generalizing seen with
  | nil => simp [dedupByUrl] at hw
  | cons v rest ih =>
      by_cases h : v.url ∈ seen
      · simp only [dedupByUrl, if_pos h] at hw
        have h2 := (mem_dedupByUrl hw).2
        have hne : ¬(v.url == w.url) = true := by
          simp only [beq_iff_eq]
          intro he
          exact h2 (he ▸ h)
        rw [List.find?_cons_of_neg _ (by simpa using hne)]
        exact ih hw
      · simp only [dedupByUrl, if_neg h] at hw
        rcases List.mem_cons.mp hw with rfl | hw2
        · rw [List.find?_cons_of_pos _ (by simp)]
        · have h2 := (mem_dedupByUrl hw2).2
          have hne : v.url ≠ w.url := fun he => h2 (by rw [← he]; exact List.mem_cons_self _ _)
          rw [List.find?_cons_of_neg _ (by simpa using hne)]
          exact ih hw2

theorem foldl_pickBW_spec (ys : List Variant) (b : Variant) :
    (ys.foldl (fun best x => if variantBW best < variantBW x then x else best) b ∈ b :: ys) ∧
    variantBW b ≤
      variantBW (ys.foldl (fun best x => if variantBW best < variantBW x then x else best) b) ∧
    ∀ x ∈ ys,
      variantBW x ≤
        variantBW (ys.foldl (fun best x => if variantBW best < variantBW x then x else best) b) := by
  induction ys generalizing b with
  | nil => simp
  | cons y ys ih =>
      simp only [List.foldl_cons]
      obtain ⟨hm, hge, hall⟩ := ih (if variantBW b < variantBW y then y else b)
      have hb : variantBW b ≤ variantBW (if variantBW b < variantBW y then y else b) := by
        by_cases hc : variantBW b < variantBW y
        · rw [if_pos hc]; exact le_of_lt hc
        · rw [if_neg hc]
      have hy : variantBW y ≤ variantBW (if variantBW b < variantBW y then y else b) := by
        by_cases hc : variantBW b < variantBW y
        · rw [if_pos hc]
        · rw [if_neg hc]; exact le_of_not_lt hc
      refine ⟨?_, hb.trans hge, ?_⟩
      · rcases List.mem_cons.mp hm with he | hm2
        · by_cases hc : variantBW b < variantBW y
          · rw [he]; simp only [if_pos hc]
            exact List.mem_cons_of_mem _ (List.mem_cons_self _ _)
          · rw [he]; simp only [if_neg hc]
            exact List.mem_cons_self _ _
        · exact List.mem_cons_of_mem _ (List.mem_cons_of_mem _ hm2)
      · intro x hx
        rcases List.mem_cons.mp hx with rfl | hx2
        · exact hy.trans hge
        · exact hall x hx2

theorem maxByBW_spec (l : List Variant) (hne : l ≠ []) :
    ∃ m, maxByBW l = some m ∧ m ∈ l ∧ ∀ x ∈ l, variantBW x ≤ variantBW m := by
  cases l with
  | nil => exact absurd rfl hne
  | cons v rest =>
      obtain ⟨hm, hge, hall⟩ := foldl_pickBW_spec rest v
      refine ⟨_, rfl, hm, ?_⟩
      intro x hx
      rcases List.mem_cons.mp hx with rfl | hx2
      · exact hge
      · exact hall x hx2

theorem mem_of_mem_pyStrip {c : Char} {l : List Char} (h : c ∈ pyStrip l) : c ∈ l := by
  have h1 : c ∈ (l.dropWhile pyIsSpaceChar).reverse.dropWhile pyIsSpaceChar :=
    List.mem_reverse.mp h
  have h2 : c ∈ (l.dropWhile pyIsSpaceChar).reverse := (List.dropWhile_sublist _).subset h1
  exact (List.dropWhile_sublist _).subset (List.mem_reverse.mp h2)

theorem tminv_init (mc : ℤ) : TMInv mc (initTM mc) := by
  constructor <;> simp [initTM]

theorem tminv_step (mc : ℤ) {s s' : TMState} (hs : TMInv mc s) (h : TMStep s s') :
    TMInv mc s' := by
  obtain ⟨q1, a1, r1, c1, qa, qr, cq, cr, ca, sb⟩ := hs
  cases h with
  | enqueue t hfresh =>
      refine ⟨Finset.insert_subset_insert t q1, a1.trans (Finset.subset_insert t _),
        r1.trans (Finset.subset_insert t _), c1.trans (Finset.subset_insert t _),
        ?_, ?_, ?_, cr, ca, sb⟩
      · intro x hx
        rcases Finset.mem_insert.mp hx with rfl | hx2
        · exact fun hmem => hfresh (a1 hmem)
        · exact qa x hx2
      · intro x hx
        rcases Finset.mem_insert.mp hx with rfl | hx2
        · exact fun hmem => hfresh (r1 hmem)
        · exact qr x hx2
      · intro x hx hmem
        rcases Finset.mem_insert.mp hmem with rfl | hx2
        · exact hfresh (c1 hx)
        · exact cq x hx hx2
  | cancelQueued t hq =>
      refine ⟨(Finset.erase_subset _ _).trans q1, a1, r1,
        Finset.insert_subset_iff.mpr ⟨q1 hq, c1⟩, ?_, ?_, ?_, ?_, ?_, sb⟩
      · exact fun x hx => qa x (Finset.mem_of_mem_erase hx)
      · exact fun x hx => qr x (Finset.mem_of_mem_erase hx)
      · intro x hx
        rcases Finset.mem_insert.mp hx with rfl | hx2
        · exact Finset.not_mem_erase x _
        · exact fun he => cq x hx2 (Finset.mem_of_mem_erase he)
      · intro x hx
        rcases Finset.mem_insert.mp hx with rfl | hx2
        · exact qr x hq
        · exact cr x hx2
      · intro x hx
        rcases Finset.mem_insert.mp hx with rfl | hx2
        · exact qa x hq
        · exact ca x hx2
  | cancelActive t ha =>
      exact ⟨q1, a1, r1, c1, qa, qr, cq, cr, ca, sb⟩
  | dequeueSkip t rest hq hnot =>
      exact ⟨q1, a1, r1, c1, qa, qr, cq, cr, ca, sb⟩
  | dequeueRun t rest hq hin hsem =>
      refine ⟨(Finset.erase_subset _ _).trans q1, Finset.insert_subset_iff.mpr ⟨q1 hin, a1⟩,
        Finset.insert_subset_iff.mpr ⟨q1 hin, r1⟩, c1, ?_, ?_, ?_, ?_, ?_, ?_⟩
      · intro x hx hmem
        have hx2 := Finset.mem_of_mem_erase hx
        rcases Finset.mem_insert.mp hmem with rfl | hmem2
        · exact Finset.ne_of_mem_erase hx rfl
        · exact qa x hx2 hmem2
      · intro x hx hmem
        have hx2 := Finset.mem_of_mem_erase hx
        rcases Finset.mem_insert.mp hmem with rfl | hmem2
        · exact Finset.ne_of_mem_erase hx rfl
        · exact qr x hx2 hmem2
      · exact fun x hx he => cq x hx (Finset.mem_of_mem_erase he)
      · intro x hx hmem
        rcases Finset.mem_insert.mp hmem with rfl | hmem2
        · exact cq x hx hin
        · exact cr x hx hmem2
      · intro x hx hmem
        rcases Finset.mem_insert.mp hmem with rfl | hmem2
        · exact cq x hx hin
        · exact ca x hx hmem2
      · have hc : (insert t s.active).card = s.active.card + 1 :=
          Finset.card_insert_of_not_mem (qa t hin)
        simp only [hc]
        omega
  | finishTask t ha =>
      refine ⟨q1, (Finset.erase_subset _ _).trans a1, r1, c1, ?_, qr, cq, cr, ?_, ?_⟩
      · exact fun x hx he => qa x hx (Finset.mem_of_mem_erase he)
      · exact fun x hx he => ca x hx (Finset.mem_of_mem_erase he)
      · have hc : (s.active.erase t).card = s.active.card - 1 :=
          Finset.card_erase_of_mem ha
        have hpos : 0 < s.active.card := Finset.card_pos.mpr ⟨t, ha⟩
        simp only [hc]
        omega

theorem tminv_reachable (mc : ℤ) {s : TMState} (h : TMReachable mc s) : TMInv mc s := by
  induction h with
  | refl => exact tminv_init mc
  | tail _ hstep ih => exact tminv_step mc ih hstep

/-! ## Claims -/

/-- C1 (amended to the untils revision): for every part attempt in
`run_recording_task` of bot/untils/chunk_pipeline.py whose encoder process
exits nonzero and whose output is missing or smaller than the 2 MB
`MIN_GOOD_BYTES` threshold, the attempt is retried with the exponential
backoff and the cumulative elapsed time (`elapsed_total`), the resume offset
(`vod_offset`) and the part index are unchanged by that failed attempt. -/
theorem claim_C1 (s : PipelineState) (o : AttemptObs)
    (hrc : o.rc ≠ 0) (htiny : untilsTiny o = true) :
    (untilsStep s o).1.elapsed_total = s.elapsed_total ∧
    (untilsStep s o).1.vod_offset = s.vod_offset ∧
    (untilsStep s o).1.part_index = s.part_index ∧
    (untilsStep s o).2 = .retry (untilsBackoff (s.fail_streak + 1)) := by
  rw [untilsStep, if_pos ⟨hrc, htiny⟩]
  exact ⟨rfl, rfl, rfl, rfl⟩

/-- Witness for C1: a concrete failed attempt (exit code 1, missing output)
leaves the progress state of the untils pipeline untouched. -/
theorem claim_C1_witness :
    (untilsStep ⟨0, 0, 0, 1⟩ ⟨1, false, 0, none, 5, 60⟩).1.elapsed_total = (0 : ℚ) ∧
    (untilsStep ⟨0, 0, 0, 1⟩ ⟨1, false, 0, none, 5, 60⟩).1.vod_offset = (0 : ℚ) ∧
    (untilsStep ⟨0, 0, 0, 1⟩ ⟨1, false, 0, none, 5, 60⟩).1.part_index = 1 ∧
    (untilsStep ⟨0, 0, 0, 1⟩ ⟨1, false, 0, none, 5, 60⟩).2 = .retry (untilsBackoff 1) :=
  claim_C1 ⟨0, 0, 0, 1⟩ ⟨1, false, 0, none, 5, 60⟩ (by decide) (by decide)

/-- Counterexample for C1 as stated: in the utils revision
(bot/utils/chunk_pipeline.py lines 344-353) the same failed attempt (exit
code 1, missing output, hence under the claimed 2 MB threshold) is retried,
yet `elapsed_total` and `vod_offset` have both advanced by the credited
duration, contradicting the claim that they are unchanged. -/
theorem claim_C1_counterexample :
    (1 : ℤ) ≠ 0 ∧ (0 : ℕ) < MIN_GOOD_BYTES ∧
    (utilsStep ⟨0, 0, 0, 1⟩ ⟨1, false, 0, none, 5, 60⟩).2 = .retry UTILS_RETRY_DELAY ∧
    (utilsStep ⟨0, 0, 0, 1⟩ ⟨1, false, 0, none, 5, 60⟩).1.elapsed_total ≠ 0 ∧
    (utilsStep ⟨0, 0, 0, 1⟩ ⟨1, false, 0, none, 5, 60⟩).1.vod_offset ≠ 0 := by
  refine ⟨by decide, by decide, ?_, ?_, ?_⟩ <;>
    norm_num [utilsStep, utilsActualDur, UTILS_RETRY_DELAY]

/-- C2 (amended to the untils revision): the backoff before retry `n` equals
`min(20, 2 * 1.6 ** min(n, 8))` seconds; the delays strictly increase through
the fifth consecutive failure, equal the 20-second cap from the fifth failure
on, and the consecutive-failure counter resets to zero on any non-tiny
(successful) part; every retry waits exactly the backoff keyed by the
incremented counter. -/
theorem claim_C2 :
    (∀ n : ℕ, untilsBackoff n = min 20 (2 * ((8 : ℚ) / 5) ^ min n 8)) ∧
    (∀ n : ℕ, 1 ≤ n → n ≤ 4 → untilsBackoff n < untilsBackoff (n + 1)) ∧
    (∀ n : ℕ, 5 ≤ n → untilsBackoff n = 20) ∧
    (∀ (s : PipelineState) (o : AttemptObs), ¬(o.rc ≠ 0 ∧ untilsTiny o = true) →
      (untilsStep s o).1.fail_streak = 0) ∧
    (∀ (s : PipelineState) (o : AttemptObs), o.rc ≠ 0 → untilsTiny o = true →
      (untilsStep s o).2 = .retry (untilsBackoff (s.fail_streak + 1))) := by
  refine ⟨fun n => rfl, ?_, ?_, ?_, ?_⟩
  · intro n h1 h4
    interval_cases n <;>
      norm_num [untilsBackoff, RETRY_BACKOFF_MAX, RETRY_BACKOFF_BASE, min_def]
  · intro n h5
    by_cases h8 : 8 ≤ n
    · have hmin : min n 8 = 8 := by omega
      simp only [untilsBackoff, hmin]
      norm_num [RETRY_BACKOFF_MAX, RETRY_BACKOFF_BASE, min_def]
    · have h7 : n ≤ 7 := by omega
      interval_cases n <;>
        norm_num [untilsBackoff, RETRY_BACKOFF_MAX, RETRY_BACKOFF_BASE, min_def]
  · intro s o h
    rw [untilsStep, if_neg h]
  · intro s o h1 h2
    rw [untilsStep, if_pos ⟨h1, h2⟩]

/-- Counterexample for C2 as stated: in the utils revision the delay before
the first retry of a tiny failed part is the fixed 3 seconds, not the claimed
`min(20, 2 * 1.6 ** min(1, 8)) = 3.2` seconds. -/
theorem claim_C2_counterexample :
    (utilsStep ⟨0, 0, 0, 1⟩ ⟨1, false, 0, none, 5, 60⟩).2 = .retry 3 ∧
    (3 : ℚ) ≠ min 20 (2 * ((8 : ℚ) / 5) ^ min 1 8) := by
  constructor
  · norm_num [utilsStep, UTILS_RETRY_DELAY]
  · norm_num [min_def]

/-- C3: in every state reachable from a fresh `TaskManager`, the number of
tasks concurrently inside the semaphore-guarded runner section (and hence
with encoder processes running) never exceeds the semaphore size
`max(1, max_concurrent)`. -/
theorem claim_C3 (mc : ℤ) (s : TMState) (h : TMReachable mc s) :
    s.active.card ≤ semSize mc := by
  have hb := (tminv_reachable mc h).sem_bound
  omega

/-- Witness for C3: the bound holds at the initial state of a manager with
the default concurrency 3. -/
theorem claim_C3_witness : (initTM 3).active.card ≤ semSize 3 :=
  claim_C3 3 (initTM 3) Relation.ReflTransGen.refl

/-- C7: in every reachable state of the task manager, a task cancelled while
queued has never had the runner invoked for it (so no encoder process was
ever spawned), is not active, and is no longer in the queued set. -/
theorem claim_C7 (mc : ℤ) (s : TMState) (h : TMReachable mc s) :
    ∀ t ∈ s.cancelledQueued, t ∉ s.ranEver ∧ t ∉ s.active ∧ t ∉ s.queuedSet := by
  have hi := tminv_reachable mc h
  exact fun t ht => ⟨hi.cq_ran_disj t ht, hi.cq_active_disj t ht, hi.cq_queued_disj t ht⟩

/-- Witness for C7: after enqueueing task 5 and cancelling it while queued,
the runner has never been invoked for it. -/
theorem claim_C7_witness : 5 ∉ tmWitnessState2.ranEver :=
  ((claim_C7 3 tmWitnessState2
      (Relation.ReflTransGen.tail
        (Relation.ReflTransGen.single (TMStep.enqueue (initTM 3) 5 (by decide)))
        (TMStep.cancelQueued tmWitnessState1 5 (by decide)))) 5 (by decide)).1

/-! ### Poll-loop helper lemmas -/

theorem untilsPoll_fires {st : PollState} {size : ℕ} {now t0 : ℚ}
    (hst : st.stallSince = some t0) (hsz : size ≤ st.lastSize)
    (hd : STALL_SECONDS ≤ now - t0) :
    (untilsPoll st size now).2 = .terminateStalled := by
  have hds : max 0 ((size : ℤ) - (st.lastSize : ℤ)) = 0 := by
    have h1 : (size : ℤ) ≤ (st.lastSize : ℤ) := by exact_mod_cast hsz
    omega
  simp [untilsPoll, hds, hst, hd]

theorem untilsPoll_under {st : PollState} {size : ℕ} {now t0 : ℚ}
    (hst : st.stallSince = some t0) (hsz : size ≤ st.lastSize)
    (hd : now - t0 < STALL_SECONDS) :
    untilsPoll st size now =
      ({ st with lastSize := size, lastTs := now, speed := pollSpeed st size now },
        .keepWaiting) := by
  have hds : max 0 ((size : ℤ) - (st.lastSize : ℤ)) = 0 := by
    have h1 : (size : ℤ) ≤ (st.lastSize : ℤ) := by exact_mod_cast hsz
    omega
  simp [untilsPoll, hds, hst, not_le.mpr hd]

theorem untilsPoll_starts_timer {st : PollState} {size : ℕ} {now : ℚ}
    (hst : st.stallSince = none) (hsz : size ≤ st.lastSize) :
    (untilsPoll st size now).2 = .keepWaiting ∧
    (untilsPoll st size now).1.stallSince = some now := by
  have hds : max 0 ((size : ℤ) - (st.lastSize : ℤ)) = 0 := by
    have h1 : (size : ℤ) ≤ (st.lastSize : ℤ) := by exact_mod_cast hsz
    omega
  constructor <;> simp [untilsPoll, hds, hst]

theorem untilsPoll_growth_resets {st : PollState} {size : ℕ} {now : ℚ}
    (hgrow : st.lastSize < size) :
    (untilsPoll st size now).2 = .keepWaiting ∧
    (untilsPoll st size now).1.stallSince = none := by
  have hlt : (0 : ℤ) < (size : ℤ) - (st.lastSize : ℤ) := by
    have h1 : (st.lastSize : ℤ) < (size : ℤ) := by exact_mod_cast hgrow
    omega
  have hds : max 0 ((size : ℤ) - (st.lastSize : ℤ)) ≠ 0 := by omega
  constructor <;> simp [untilsPoll, hds]

theorem pollRun_fires {size : ℕ} {t0 : ℚ} :
    ∀ (ts : List ℚ) (st : PollState), st.lastSize = size → st.stallSince = some t0 →
      (∃ t ∈ ts, STALL_SECONDS ≤ t - t0) →
      (pollRun untilsPoll st size ts).2 = .terminateStalled := by
  intro ts
  induction ts with
  | nil => intro st _ _ hex; simp at hex
  | cons t ts ih =>
      intro st hsz hst hex
      by_cases hfire : STALL_SECONDS ≤ t - t0
      · have hterm := untilsPoll_fires hst (le_of_eq hsz.symm) hfire
        rw [pollRun]
        rcases hp : untilsPoll st size t with ⟨st1, act⟩
        rw [hp] at hterm
        simp only at hterm
        subst hterm
        rfl
      · rw [pollRun, untilsPoll_under hst (le_of_eq hsz.symm) (not_le.mp hfire)]
        refine ih _ rfl hst ?_
        rcases hex with ⟨t2, ht2, hle⟩
        rcases List.mem_cons.mp ht2 with rfl | ht3
        · exact absurd hle hfire
        · exact ⟨t2, ht3, hle⟩

theorem pollRun_keeps {size : ℕ} {t0 : ℚ} :
    ∀ (ts : List ℚ) (st : PollState), st.lastSize = size → st.stallSince = some t0 →
      (∀ t ∈ ts, t - t0 < STALL_SECONDS) →
      (pollRun untilsPoll st size ts).2 = .keepWaiting := by
  intro ts
  induction ts with
  | nil => intro st _ _ _; rfl
  | cons t ts ih =>
      intro st hsz hst hall
      rw [pollRun, untilsPoll_under hst (le_of_eq hsz.symm) (hall t (List.mem_cons_self _ _))]
      exact ih _ rfl hst (fun t2 ht2 => hall t2 (List.mem_cons_of_mem _ ht2))

theorem utilsPollRun_keeps (size : ℕ) :
    ∀ (ts : List ℚ) (st : PollState), (pollRun utilsPoll st size ts).2 = .keepWaiting := by
  intro ts
  induction ts with
  | nil => intro st; rfl
  | cons t ts ih => intro st; exact ih _

/-- C4 (amended to the untils revision): the untils progress loop polls
output growth every 2 seconds; a poll with zero growth starts the stall
timer when none is running, keeps it otherwise, and once zero growth has
persisted for `STALL_SECONDS` (25 s) the poll terminates the encoder process
(after which the attempt falls through to `rc = await p.wait()` and the
ordinary completion handling, `untilsStep`); any growth resets the timer.
At run level, a sequence of zero-growth polls terminates the process exactly
when one of them is at least 25 s after the timer start: on the fixed
2-second schedule the 14th consecutive zero-growth poll (26 s) fires, while
13 polls (24 s) do not. -/
theorem claim_C4 :
    (∀ (st : PollState) (size : ℕ) (now t0 : ℚ), st.stallSince = some t0 →
      size ≤ st.lastSize → STALL_SECONDS ≤ now - t0 →
      (untilsPoll st size now).2 = .terminateStalled) ∧
    (∀ (st : PollState) (size : ℕ) (now t0 : ℚ), st.stallSince = some t0 →
      size ≤ st.lastSize → now - t0 < STALL_SECONDS →
      (untilsPoll st size now).2 = .keepWaiting ∧
      (untilsPoll st size now).1.stallSince = some t0) ∧
    (∀ (st : PollState) (size : ℕ) (now : ℚ), st.stallSince = none →
      size ≤ st.lastSize →
      (untilsPoll st size now).2 = .keepWaiting ∧
      (untilsPoll st size now).1.stallSince = some now) ∧
    (∀ (st : PollState) (size : ℕ) (now : ℚ), st.lastSize < size →
      (untilsPoll st size now).2 = .keepWaiting ∧
      (untilsPoll st size now).1.stallSince = none) ∧
    (∀ (ts : List ℚ) (st : PollState) (size : ℕ) (t0 : ℚ),
      st.lastSize = size → st.stallSince = some t0 →
      (∃ t ∈ ts, STALL_SECONDS ≤ t - t0) →
      (pollRun untilsPoll st size ts).2 = .terminateStalled) ∧
    (∀ (ts : List ℚ) (st : PollState) (size : ℕ) (t0 : ℚ),
      st.lastSize = size → st.stallSince = some t0 →
      (∀ t ∈ ts, t - t0 < STALL_SECONDS) →
      (pollRun untilsPoll st size ts).2 = .keepWaiting) ∧
    (∀ t0 : ℚ, ∃ t ∈ pollTimes t0 14, STALL_SECONDS ≤ t - t0) ∧
    (∀ t0 : ℚ, ∀ t ∈ pollTimes t0 13, t - t0 < STALL_SECONDS) := by
  refine ⟨?_, ?_, ?_, ?_, ?_, ?_, ?_, ?_⟩
  · exact fun st size now t0 hst hsz hd => untilsPoll_fires hst hsz hd
  · intro st size now t0 hst hsz hd
    rw [untilsPoll_under hst hsz hd]
    exact ⟨rfl, hst ▸ rfl⟩
  · exact fun st size now hst hsz => untilsPoll_starts_timer hst hsz
  · exact fun st size now hgrow => untilsPoll_growth_resets hgrow
  · exact fun ts st size t0 hsz hst hex => pollRun_fires ts st hsz hst hex
  · exact fun ts st size t0 hsz hst hall => pollRun_keeps ts st hsz hst hall
  · intro t0
    refine ⟨t0 + 2 * ((13 : ℕ) : ℚ), ?_, ?_⟩
    · rw [pollTimes]
      exact (@List.mem_map ℕ ℚ _ (fun i => t0 + 2 * (i : ℚ)) (List.range 14)).mpr
        ⟨13, List.mem_range.mpr (by norm_num), rfl⟩
    · have he : t0 + 2 * ((13 : ℕ) : ℚ) - t0 = 26 := by push_cast; ring
      rw [he]
      norm_num [STALL_SECONDS]
  · intro t0 t ht
    rw [pollTimes] at ht
    obtain ⟨i, hi, hfi⟩ :=
      (@List.mem_map ℕ ℚ t (fun i => t0 + 2 * (i : ℚ)) (List.range 13)).mp ht
    have hle : (i : ℚ) ≤ 12 := by
      have hi13 : i ≤ 12 := by
        have := List.mem_range.mp hi
        omega
      exact_mod_cast hi13
    rw [← hfi]
    have he : t0 + 2 * (i : ℚ) - t0 = 2 * (i : ℚ) := by ring
    rw [he, STALL_SECONDS]
    linarith

/-- Counterexample for C4 as stated: the utils revision
(bot/utils/chunk_pipeline.py lines 316-333) polls on the same 2-second
interval but has no stall watchdog: after 20 consecutive zero-growth polls
(38 seconds of stall, well past the claimed 25-second threshold with the
process still running), the loop has never terminated the process. -/
theorem claim_C4_counterexample :
    STALL_SECONDS ≤ 38 ∧
    (pollRun utilsPoll ⟨100, 0, 0, none⟩ 100 (pollTimes 0 20)).2 = .keepWaiting := by
  exact ⟨by norm_num [STALL_SECONDS], utilsPollRun_keeps 100 (pollTimes 0 20) _⟩

/-- C5 (amended): for every part whose first upload attempt is rejected by
the destination, exactly one lossless remux is attempted and, when the remux
produces a non-empty output, the upload is retried exactly once with the
fresh tracker (`tracker2`); if the retried upload raises, that exception
propagates to the task.  However, when the remux fails to produce a
non-empty output, the transfer is NOT surfaced as an exception: the original
rejection is swallowed, the part is skipped silently (`ok` stays false), and
the task continues with the next part. -/
theorem claim_C5 (o : UploadObs) (hrej : o.firstSendOk = false) :
    (uploadPhase o).2.remuxAttempts = 1 ∧
    (remux_to_mp4 o.remuxCmdOk o.remuxOutExists o.remuxOutSize = true →
      (uploadPhase o).2.sendAttempts = 2 ∧
      (o.secondSendOk = true → (uploadPhase o).1 = .uploaded 2) ∧
      (o.secondSendOk = false → (uploadPhase o).1 = .raisedToTask)) ∧
    (remux_to_mp4 o.remuxCmdOk o.remuxOutExists o.remuxOutSize = false →
      (uploadPhase o).1 = .skippedSilently ∧ (uploadPhase o).2.sendAttempts = 1) := by
  cases hrem : remux_to_mp4 o.remuxCmdOk o.remuxOutExists o.remuxOutSize with
  | false => simp [uploadPhase, hrej, hrem]
  | true =>
      cases hsnd : o.secondSendOk with
      | true => simp [uploadPhase, hrej, hrem, hsnd]
      | false => simp [uploadPhase, hrej, hrem, hsnd]

/-- Witness for C5: a rejected first upload with a succeeding remux performs
exactly one remux attempt. -/
theorem claim_C5_witness :
    (uploadPhase ⟨false, true, true, 1000, true⟩).2.remuxAttempts = 1 :=
  (claim_C5 ⟨false, true, true, 1000, true⟩ rfl).1

/-- Counterexample for C5 as stated: when the first upload is rejected and
the remux fails (here: the remux subprocess raises, no output file), the
utils code falls out of the `except` block with `ok = False` and no raise,
so the outcome is a silent skip, not an exception surfaced to the task. -/
theorem claim_C5_counterexample :
    remux_to_mp4 false false 0 = false ∧
    (uploadPhase ⟨false, false, false, 0, true⟩).1 = .skippedSilently ∧
    (uploadPhase ⟨false, false, false, 0, true⟩).1 ≠ .raisedToTask := by
  decide

/-- C6 (amended to the untils revision): for every usable (non-retried) part
attempt, the duration credited to both `elapsed_total` and `vod_offset`
equals the prober duration when it is obtainable and strictly positive, and
otherwise equals the wall-clock time of the attempt capped at the part's
time budget (`min(time.time() - start_ts, this_part_t)`). -/
theorem claim_C6 (s : PipelineState) (o : AttemptObs)
    (husable : ¬(o.rc ≠ 0 ∧ untilsTiny o = true)) :
    (∀ d : ℚ, o.probed = some d → 0 < d →
      (untilsStep s o).1.elapsed_total = s.elapsed_total + d ∧
      (untilsStep s o).1.vod_offset = s.vod_offset + d) ∧
    ((o.probed = none ∨ ∃ d, o.probed = some d ∧ ¬0 < d) →
      (untilsStep s o).1.elapsed_total = s.elapsed_total + min o.wallClock o.thisPartT ∧
      (untilsStep s o).1.vod_offset = s.vod_offset + min o.wallClock o.thisPartT) := by
  rw [untilsStep, if_neg husable]
  constructor
  · intro d hd hpos
    simp [untilsActualDur, hd, hpos]
  · intro hcase
    rcases hcase with hnone | ⟨d, hd, hneg⟩
    · simp [untilsActualDur, hnone, untilsElapsedWall]
    · simp [untilsActualDur, hd, hneg, untilsElapsedWall]

/-- Witness for C6: a successful attempt with a positive probed duration of
30 seconds credits exactly 30 seconds. -/
theorem claim_C6_witness :
    (untilsStep ⟨0, 0, 0, 1⟩ ⟨0, true, 5242880, some 30, 45, 60⟩).1.elapsed_total = 0 + 30 :=
  ((claim_C6 ⟨0, 0, 0, 1⟩ ⟨0, true, 5242880, some 30, 45, 60⟩ (by decide)).1
    30 rfl (by norm_num)).1

/-- Counterexample for C6 as stated: in the utils revision the fallback when
the prober yields nothing is the part's full time budget, not the wall-clock
time of the attempt: a successful part with no probed duration whose attempt
took 10 seconds of wall clock is credited the full 900-second budget. -/
theorem claim_C6_counterexample :
    (utilsStep ⟨0, 0, 0, 1⟩ ⟨0, true, 5242880, none, 10, 900⟩).1.elapsed_total = 900 ∧
    (900 : ℚ) ≠ 10 := by
  constructor
  · norm_num [utilsStep, utilsActualDur]
  · norm_num

/-- C8: at every part boundary of a master-manifest task, given a non-empty
re-resolved variant list and a known (non-empty) previous label: when some
variant's label matches the previous label case-insensitively, the selection
returns a matching variant from the list; when no variant matches, the
selection returns a variant of the list whose `_bw` bandwidth key is
maximal. -/
theorem claim_C8 (lbl : String) (vs : List Variant) (hne : vs ≠ []) (hlbl : lbl ≠ "") :
    ((∃ v ∈ vs, v.label.toLower = lbl.toLower) →
      ∃ w, selectVariant (some lbl) vs = some w ∧ w ∈ vs ∧ w.label.toLower = lbl.toLower) ∧
    ((∀ v ∈ vs, v.label.toLower ≠ lbl.toLower) →
      ∃ w, selectVariant (some lbl) vs = some w ∧ w ∈ vs ∧
        ∀ v ∈ vs, variantBW v ≤ variantBW w) := by
  constructor
  · rintro ⟨v0, hv0, hlab⟩
    have hfind : ∃ w, chooseByLabel lbl vs = some w := by
      rw [chooseByLabel]
      refine Option.isSome_iff_exists.mp (List.find?_isSome.mpr ⟨v0, hv0, ?_⟩)
      simp [hlab]
    obtain ⟨w, hw⟩ := hfind
    refine ⟨w, ?_, List.mem_of_find?_eq_some hw, ?_⟩
    · cases vs with
      | nil => exact absurd rfl hne
      | cons a rest => simp [selectVariant, if_neg hlbl, hw]
    · have := List.find?_some hw
      simpa using this
  · intro hnone
    have hfind : chooseByLabel lbl vs = none := by
      rw [chooseByLabel, List.find?_eq_none]
      intro x hx
      simpa using hnone x hx
    cases vs with
    | nil => exact absurd rfl hne
    | cons a rest =>
        obtain ⟨m, hm, hmem, hmax⟩ := maxByBW_spec (a :: rest) (by simp)
        refine ⟨m, ?_, hmem, hmax⟩
        simp [selectVariant, if_neg hlbl, hfind, hm]

/-- Witness for C8: with previous label 1080p among two variants, a variant
matching that label is selected. -/
theorem claim_C8_witness :
    ∃ w, selectVariant (some "1080p")
        [⟨"v1", "720p", "800000", "u1", []⟩, ⟨"v2", "1080p", "2000000", "u2", []⟩] = some w ∧
      w ∈ [⟨"v1", "720p", "800000", "u1", []⟩, ⟨"v2", "1080p", "2000000", "u2", []⟩] ∧
      w.label.toLower = ("1080p" : String).toLower :=
  (claim_C8 "1080p"
    [⟨"v1", "720p", "800000", "u1", []⟩, ⟨"v2", "1080p", "2000000", "u2", []⟩]
    (by decide) (by decide)).1
    ⟨⟨"v2", "1080p", "2000000", "u2", []⟩, by decide, rfl⟩

/-- C9: `parse_master` is a pure function of `(text, base_url)`: its variant
list carries no two entries with the same resolved URL, is a sublist of the
pre-deduplication scan (so declaration order is preserved), covers every
scanned URL, keeps exactly the first-seen entry for each URL, and parsing
the same manifest twice yields identical variant and audio lists (trivially,
since the embedding is a function). -/
theorem claim_C9 (text base_url : String) :
    ((parse_master text base_url).1.map Variant.url).Nodup ∧
    (parse_master text base_url).1.Sublist (rawVariants text base_url) ∧
    (∀ v ∈ rawVariants text base_url, ∃ w ∈ (parse_master text base_url).1, w.url = v.url) ∧
    (∀ w ∈ (parse_master text base_url).1,
      (rawVariants text base_url).find? (fun x => x.url == w.url) = some w) ∧
    parse_master text base_url = parse_master text base_url := by
  refine ⟨dedupByUrl_nodup _ _, dedupByUrl_sublist _ _, ?_, ?_, rfl⟩
  · exact fun v hv => dedupByUrl_covers hv (List.not_mem_nil _)
  · exact fun w hw => dedupByUrl_first hw

/-- C10: for every input string, `_safe_name` returns a non-empty string all
of whose characters are in the allowed set (alphanumeric or one of
space, -, _, ., [, ], (, ), +); disallowed characters are replaced by an
underscore position-for-position before the final strip; and if the
sanitized text strips to the empty string, the constant "recording" is
returned. -/
theorem claim_C10 (name : String) :
    safe_name name ≠ "" ∧
    (∀ c ∈ (safe_name name).data, keepChar c = true) ∧
    (name.data.map sanitizeChar).length = name.data.length ∧
    (∀ i (h : i < name.data.length),
      (name.data.map sanitizeChar).get ⟨i, by simpa using h⟩ =
        (if keepChar (name.data.get ⟨i, h⟩) then name.data.get ⟨i, h⟩ else '_')) ∧
    (pyStrip (name.data.map sanitizeChar) = [] → safe_name name = "recording") := by
  have hallowed : ∀ c ∈ pyStrip (name.data.map sanitizeChar), keepChar c = true := by
    intro c hc
    obtain ⟨a, _, he⟩ := List.mem_map.mp (mem_of_mem_pyStrip hc)
    rw [← he, sanitizeChar]
    by_cases hk : keepChar a
    · rwa [if_pos hk]
    · rw [if_neg hk]
      decide
  refine ⟨?_, ?_, List.length_map _ _, ?_, ?_⟩
  · rw [safe_name]
    by_cases hempty : (pyStrip (name.data.map sanitizeChar)).isEmpty
    · rw [if_pos hempty]
      decide
    · rw [if_neg hempty]
      intro he
      have hdata : pyStrip (name.data.map sanitizeChar) = [] := congrArg String.data he
      rw [hdata] at hempty
      exact hempty rfl
  · intro c hc
    rw [safe_name] at hc
    by_cases hempty : (pyStrip (name.data.map sanitizeChar)).isEmpty
    · rw [if_pos hempty] at hc
      have hrec : ∀ c2 ∈ ("recording" : String).data, keepChar c2 = true := by decide
      exact hrec c hc
    · rw [if_neg hempty] at hc
      exact hallowed c hc
  · intro i h
    simp [sanitizeChar]
  · intro hstrip
    rw [safe_name, if_pos (by rw [hstrip]; rfl)]

end RecordingBot
